import Mathlib

set_option autoImplicit false

/-!
Verification of the `filepath-tree` path store (src/lib.rs, src/errors.rs).

The Rust code keeps a tree of `PathNode`s behind `Rc<RwLock<_>>` handles.
`PathStore::add_path` walks the components of an absolute path from the root,
creating missing children, and finally overwrites the payload of the node it
ends on; `PathStore::walk` is a depth-first traversal pushing/popping segment
names on a shared `PathBuf` and collecting the full path of every node whose
child map is empty.

Embedding choices:
* `PathNode` becomes a nested inductive tree; the `HashMap<OsString, _>` child
  map becomes an association list with `HashMap`-style `get`/`insert`
  (`getItem`/`setItem`).  Iteration order of `HashMap::values` is unspecified
  in Rust; the association list fixes one order, and all enumeration claims
  are stated up to set semantics.
* `OsString` segment names become `String`; an input `P : AsRef<Path>` is
  abstracted as `InputPath`: its `is_absolute` flag together with the list of
  `components()` after the root component (`.skip(1)` in the source).
* A full path produced by `walk` (an `OsString` built by `PathBuf::push`) is
  represented by its component list, root component `"/"` included: the
  `OsString` `"/f/g"` is the list `["/", "f", "g"]` and `"/"` is `["/"]`.
* The `Weak` parent back-references cannot live in an inductive tree; the
  pointer structure (which `Rc` cell sits in which parent's map) is modelled
  separately by an arena embedding (`ANode`/`AStore`) where `Rc` identity is
  an arena index, used for the structural-invariant claim.
-/

namespace FilepathTree

/-- Embedding of `StorageError` (src/errors.rs): the one error kind of the
crate, returned by `add_path` when the input path is not absolute. -/
inductive StorageError where
  | PathNotRelative
  deriving DecidableEq

/-- Abstraction of the caller-supplied `P : AsRef<Path>` argument:
`absolute` is `Path::is_absolute`, `segments` is the list of
`components()` after the leading root component (the `.skip(1)`). -/
structure InputPath where
  absolute : Bool
  segments : List String
  deriving DecidableEq

/-- Embedding of `PathNode<T>` (src/lib.rs): segment name, optional payload,
child map as an association list.  The `parent : Option<Weak<_>>` field is a
non-owning pointer and is modelled by the arena embedding below. -/
inductive PathNode (T : Type) : Type where
  | mk (name : String) (data : Option T) (items : List (String × PathNode T)) : PathNode T

/-- Field accessor: `self.name`. -/
def PathNode.name {T : Type} : PathNode T → String
  | .mk n _ _ => n

/-- Field accessor: `self.data`. -/
def PathNode.data {T : Type} : PathNode T → Option T
  | .mk _ d _ => d

/-- Field accessor: `self.items`. -/
def PathNode.items {T : Type} : PathNode T → List (String × PathNode T)
  | .mk _ _ i => i

/-- `PathNode::root`: the root node, fixed name `"/"`, no children. -/
def PathNode.root {T : Type} (data : Option T) : PathNode T :=
  .mk "/" data []

/-- `PathNode::new`: a fresh child node with the given name and payload and no
children (its parent back-reference lives in the arena embedding). -/
def PathNode.new {T : Type} (name : String) (data : Option T) : PathNode T :=
  .mk name data []

/-- `PathNode::set_data`: unconditionally overwrite the payload. -/
def PathNode.set_data {T : Type} (n : PathNode T) (data : Option T) : PathNode T :=
  .mk n.name data n.items

/-- `HashMap::get` on a child map (keyed by segment name): first entry with
the given key. -/
def getItem {B : Type} (k : String) : List (String × B) → Option B
  | [] => none
  | (a, c) :: rest => if a = k then some c else getItem k rest

/-- `HashMap::insert` on a child map: replace the entry with the given key,
or append a new entry when the key is absent. -/
def setItem {B : Type} (k : String) (v : B) :
    List (String × B) → List (String × B)
  | [] => [(k, v)]
  | (a, c) :: rest => if a = k then (a, v) :: rest else (a, c) :: setItem k v rest

/-- The `while let Some(item) = comp.next()` loop of `add_path`, plus the
final `set_data`, as structural recursion on the remaining segments.
Returns the updated subtree, the `changed` flag, and the number of nodes
created (the amount `self.size` was incremented by). -/
def addSegs {T : Type} : List String → PathNode T → Option T → PathNode T × Bool × Nat
  | [], node, data => (node.set_data data, false, 0)
  | s :: rest, node, data =>
    match getItem s node.items with
    | some c =>
      let r := addSegs rest c data
      (PathNode.mk node.name node.data (setItem s r.1 node.items), r.2.1, r.2.2)
    | none =>
      let r := addSegs rest (PathNode.new s none) data
      (PathNode.mk node.name node.data (setItem s r.1 node.items), true, r.2.2 + 1)

/-- Embedding of `PathStore<T>` (src/lib.rs): the root node and the running
count of non-root nodes created. -/
structure PathStore (T : Type) where
  root : PathNode T
  size : Nat

/-- `PathStore::new`. -/
def PathStore.new {T : Type} (data : Option T) : PathStore T :=
  ⟨PathNode.root data, 0⟩

/-- `PathStore::add_path`: reject non-absolute paths with the crate's single
error kind, otherwise descend/extend from the root over the components after
the root component and overwrite the final node's payload. -/
def PathStore.add_path {T : Type} (s : PathStore T) (path : InputPath) (data : Option T) :
    Except StorageError (PathStore T × Bool) :=
  if !path.absolute then
    .error .PathNotRelative
  else
    let r := addSegs path.segments s.root data
    .ok (⟨r.1, s.size + r.2.2⟩, r.2.1)

/-- `PathBuf::pop`: truncate to the parent path; a lone root component has no
parent and is kept unchanged. -/
def pathPop (cd : List String) : List String :=
  if cd = ["/"] then cd else cd.dropLast

mutual

/-- `PathStore::walk_inner`, with the two pieces of state the Rust function
mutates — the shared `current_dir : PathBuf` and the output vector `out` —
threaded explicitly: push the node's name, emit the current path if the node
has no children, otherwise recurse into every child, then pop. -/
def walk_inner {T : Type} : PathNode T → List String → List (List String) →
    List String × List (List String)
  | .mk name _ items, current_dir, out =>
    let cd := current_dir ++ [name]
    match items with
    | [] => (pathPop cd, out ++ [cd])
    | e :: rest =>
      let r := walkItems (e :: rest) cd out
      (pathPop r.1, r.2)

/-- The `for item in current_node.items.values()` loop of `walk_inner`. -/
def walkItems {T : Type} : List (String × PathNode T) → List String → List (List String) →
    List String × List (List String)
  | [], cd, out => (cd, out)
  | (_, c) :: rest, cd, out =>
    let r := walk_inner c cd out
    walkItems rest r.1 r.2

end

/-- `PathStore::walk`: run the traversal from the root with an empty
`PathBuf` and an empty output vector and return the collected paths. -/
def PathStore.walk {T : Type} (s : PathStore T) : List (List String) :=
  (walk_inner s.root [] []).2

/-- `PathStore::size`. -/
def PathStore.size' {T : Type} (s : PathStore T) : Nat :=
  s.size

/-! ### Observation helpers

Functions reading the model, used to state the claims: structural lookup of
the node a segment list leads to, existence of a path, the number of missing
segments of a path, the number of nodes of the tree, and well-formedness of
the child maps (every entry's key equals the child's own name and keys are
not duplicated — true of every store the API can build). -/

/-- Follow a segment list from a node through the child maps. -/
def nodeAt {T : Type} : PathNode T → List String → Option (PathNode T)
  | n, [] => some n
  | n, s :: rest =>
    match getItem s n.items with
    | some c => nodeAt c rest
    | none => none

/-- A path fully exists structurally below a node. -/
def pathExists {T : Type} (n : PathNode T) (segs : List String) : Bool :=
  (nodeAt n segs).isSome

/-- How many of the segments of a path are not already present: the number of
nodes an `add_path` call on it would create. -/
def missingCount {T : Type} : PathNode T → List String → Nat
  | _, [] => 0
  | n, s :: rest =>
    match getItem s n.items with
    | some c => missingCount c rest
    | none => rest.length + 1

mutual

/-- Total number of nodes of a subtree, the subtree's own root included. -/
def numNodes {T : Type} : PathNode T → Nat
  | .mk _ _ items => 1 + numNodesItems items

def numNodesItems {T : Type} : List (String × PathNode T) → Nat
  | [] => 0
  | (_, c) :: rest => numNodes c + numNodesItems rest

end

mutual

/-- Well-formedness of a tree: at every node, each child-map entry's key
equals the child's own name and no key occurs twice. -/
def wfNode {T : Type} : PathNode T → Bool
  | .mk _ _ items => wfItems items

def wfItems {T : Type} : List (String × PathNode T) → Bool
  | [] => true
  | (k, c) :: rest =>
    (c.name == k) && (getItem k rest).isNone && wfNode c && wfItems rest

end

mutual

/-- Pure value of the traversal: the list of full paths `walk_inner` appends
to `out`, without the threaded state. -/
def walkPure {T : Type} : PathNode T → List String → List (List String)
  | .mk name _ items, current_dir =>
    let cd := current_dir ++ [name]
    match items with
    | [] => [cd]
    | e :: rest => walkPureItems (e :: rest) cd

def walkPureItems {T : Type} : List (String × PathNode T) → List String → List (List String)
  | [], _ => []
  | (_, c) :: rest, cd => walkPure c cd ++ walkPureItems rest cd

end

/-- Boolean prefix test on segment lists. -/
def isPre {α : Type} [DecidableEq α] : List α → List α → Bool
  | [], _ => true
  | _ :: _, [] => false
  | a :: p, b :: q => (a == b) && isPre p q

/-! ### The public API as a step function

Each public operation of `PathStore`, with the store state it leaves behind
made explicit.  `add_path` takes `&mut self` and returns its `Result`;
`walk` and `size` take `&self` and only ever acquire read locks, so the
store they leave behind is the one they were given. -/

/-- One public API call. -/
inductive Op (T : Type) where
  | addOp (path : InputPath) (data : Option T)
  | walkOp
  | sizeOp

/-- The visible result of one public API call. -/
inductive Out (T : Type) where
  | addRes (r : Except StorageError Bool)
  | walkRes (paths : List (List String))
  | sizeRes (n : Nat)

/-- Run one public API call on a store: the store afterwards and the result.
A failing `add_path` returns before touching any node, so it leaves the
store it was given. -/
def step {T : Type} (s : PathStore T) : Op T → PathStore T × Out T
  | .addOp p d =>
    match s.add_path p d with
    | .ok (s', b) => (s', .addRes (.ok b))
    | .error e => (s, .addRes (.error e))
  | .walkOp => (s, .walkRes s.walk)
  | .sizeOp => (s, .sizeRes s.size)

/-- Run a sequence of `add_path` calls, keeping the store across failures. -/
def runAdds {T : Type} (s : PathStore T) : List (InputPath × Option T) → PathStore T
  | [] => s
  | (p, d) :: rest => runAdds (step s (.addOp p d)).1 rest

/-! ### Arena embedding of the pointer structure

The inductive tree above cannot carry the `parent : Option<Weak<…>>` field.
To reason about the pointer structure — which `Rc` cell is registered in
which parent's child map, and where each `Weak` back-reference points — the
same code is embedded a second time with `Rc` identity made explicit: the
heap of `Rc<RwLock<PathNode<T>>>` cells is an arena (a list), an `Rc`/`Weak`
handle is an index into it, `Rc::new` appends a cell, and `Rc::downgrade`
of the cursor is the cursor's index. -/

/-- `PathNode<T>` with `Rc` handles made explicit: `items` maps a segment
name to the child cell's arena index, `parent` is the weak back-reference as
an arena index. -/
structure ANode (T : Type) where
  name : String
  data : Option T
  items : List (String × Nat)
  parent : Option Nat
  deriving DecidableEq

/-- `PathNode::root` in the arena: name `"/"`, no children, no parent. -/
def ANode.root {T : Type} (data : Option T) : ANode T :=
  ⟨"/", data, [], none⟩

/-- The `while` loop of `add_path` over the arena: descend from the cursor
`cur`, appending a fresh cell (`PathNode::new` + `Rc::new`) for each missing
segment, with its `parent` weak reference pointing at the cell the cursor
was on (`Rc::downgrade(&current_in_tree)`), and registering it in that
cell's child map.  Returns the arena, the final cursor, and the number of
cells created.  The `none` cursor-lookup branch is unreachable when the
cursor is a valid index. -/
def addSegsA {T : Type} : List String → Nat → List (ANode T) → List (ANode T) × Nat × Nat
  | [], cur, nodes => (nodes, cur, 0)
  | s :: rest, cur, nodes =>
    match nodes[cur]? with
    | none => (nodes, cur, 0)
    | some n =>
      match getItem s n.items with
      | some i => addSegsA rest i nodes
      | none =>
        let idx := nodes.length
        let toAdd : ANode T := ⟨s, none, [], some cur⟩
        let r := addSegsA rest idx
          ((nodes ++ [toAdd]).set cur { n with items := setItem s idx n.items })
        (r.1, r.2.1, r.2.2 + 1)

/-- `PathStore<T>` over the arena: the heap of cells (the root cell is index
0) and the size counter. -/
structure AStore (T : Type) where
  nodes : List (ANode T)
  size : Nat

/-- `PathStore::new` over the arena. -/
def AStore.new {T : Type} (data : Option T) : AStore T :=
  ⟨[ANode.root data], 0⟩

/-- `PathStore::add_path` over the arena: reject non-absolute paths, descend
or extend from the root cell, then `set_data` on the cell under the final
cursor.  `changed` is set exactly when a cell was created. -/
def AStore.add_path {T : Type} (s : AStore T) (path : InputPath) (data : Option T) :
    Except StorageError (AStore T × Bool) :=
  if !path.absolute then
    .error .PathNotRelative
  else
    let r := addSegsA path.segments 0 s.nodes
    let nodes :=
      match r.1[r.2.1]? with
      | some n => r.1.set r.2.1 { n with data := data }
      | none => r.1
    .ok (⟨nodes, s.size + r.2.2⟩, decide (r.2.2 ≠ 0))

/-- Run one `add_path` call on an arena store, keeping the store on failure. -/
def astep {T : Type} (s : AStore T) (path : InputPath) (data : Option T) : AStore T :=
  match s.add_path path data with
  | .ok (s', _) => s'
  | .error _ => s

/-- Run a sequence of `add_path` calls on an arena store. -/
def runAddsA {T : Type} (s : AStore T) : List (InputPath × Option T) → AStore T
  | [] => s
  | (p, d) :: rest => runAddsA (astep s p d) rest

/-- All child-map entries of the arena, across every cell. -/
def entriesOf {T : Type} (nodes : List (ANode T)) : List (String × Nat) :=
  (nodes.map ANode.items).flatten

/-- How often cell `i` is registered as somebody's child. -/
def countReg {T : Type} (i : Nat) (nodes : List (ANode T)) : Nat :=
  ((entriesOf nodes).map Prod.snd).count i

/-- The structural invariant of the arena: the root cell exists and has no
parent; every child-map entry points at an existing non-root cell whose name
equals the entry's key and whose parent back-reference points at the cell
holding the entry; every non-root cell is registered as a child exactly
once, and the root cell never. -/
structure AInv {T : Type} (nodes : List (ANode T)) : Prop where
  nonempty : nodes ≠ []
  rootParent : ∀ r, nodes[0]? = some r → r.parent = none
  entriesValid : ∀ j n, nodes[j]? = some n → ∀ k i, (k, i) ∈ n.items →
    i ≠ 0 ∧ ∃ c, nodes[i]? = some c ∧ c.name = k ∧ c.parent = some j
  regUnique : ∀ i, countReg i nodes ≤ 1
  regComplete : ∀ i, 0 < i → i < nodes.length → countReg i nodes = 1

/-- The state invariant of every store reachable through the public API: the
tree is well-formed, the root keeps the sentinel name `"/"`, and the size
counter counts exactly the non-root nodes of the tree. -/
def StoreWF {T : Type} (s : PathStore T) : Prop :=
  wfNode s.root = true ∧ s.root.name = "/" ∧ s.size + 1 = numNodes s.root

/-! ### Child-map lemmas -/

theorem getItem_setItem_self {B : Type} (k : String) (v : B)
    (l : List (String × B)) : getItem k (setItem k v l) = some v := by
  induction l with
  | nil => simp [setItem, getItem]
  | cons e rest ih =>
    obtain ⟨a, c⟩ := e
    by_cases h : a = k
    · simp [setItem, getItem, h]
    · simp [setItem, getItem, h, ih]

theorem getItem_setItem_ne {B : Type} (a k : String) (v : B)
    (l : List (String × B)) (h : a ≠ k) :
    getItem a (setItem k v l) = getItem a l := by
  induction l with
  | nil =>
    simp only [setItem, getItem]
    rw [if_neg (fun hh => h hh.symm)]
  | cons e rest ih =>
    obtain ⟨b, c⟩ := e
    by_cases hb : b = k
    · subst hb
      simp only [setItem, if_pos rfl, getItem]
      rw [if_neg (fun hh => h hh.symm), if_neg (fun hh => h hh.symm)]
    · simp only [setItem, if_neg hb, getItem]
      by_cases hba : b = a
      · rw [if_pos hba, if_pos hba]
      · rw [if_neg hba, if_neg hba, ih]

theorem setItem_of_none {B : Type} (k : String) (v : B)
    (l : List (String × B)) (h : getItem k l = none) :
    setItem k v l = l ++ [(k, v)] := by
  induction l with
  | nil => simp [setItem]
  | cons e rest ih =>
    obtain ⟨a, c⟩ := e
    by_cases ha : a = k
    · simp [getItem, ha] at h
    · simp [getItem, ha] at h
      simp [setItem, ha, ih h]

theorem getItem_eq_none_iff {B : Type} (k : String) (l : List (String × B)) :
    getItem k l = none ↔ ∀ p ∈ l, p.1 ≠ k := by
  induction l with
  | nil => simp [getItem]
  | cons e rest ih =>
    obtain ⟨a, c⟩ := e
    by_cases ha : a = k
    · simp [getItem, ha]
    · simp [getItem, ha, ih]

theorem getItem_mem {B : Type} {k : String} {c : B}
    {l : List (String × B)} (h : getItem k l = some c) : (k, c) ∈ l := by
  induction l with
  | nil => simp [getItem] at h
  | cons e rest ih =>
    obtain ⟨a, c'⟩ := e
    by_cases ha : a = k
    · subst ha
      simp [getItem] at h
      simp [h]
    · simp [getItem, ha] at h
      simp [ih h]

/-! ### `addSegs` lemmas: name preservation, the `changed` flag, the created
count, node count, the final node's payload, path existence, and
well-formedness. -/

theorem addSegs_name {T : Type} (segs : List String) (n : PathNode T) (d : Option T) :
    ((addSegs segs n d).1).name = n.name := by
  cases segs with
  | nil => cases n; simp [addSegs, PathNode.set_data, PathNode.name]
  | cons s rest =>
    cases n with
    | mk name dat items =>
      simp only [addSegs]
      cases h : getItem s items with
      | some c => simp [PathNode.name, PathNode.items, h]
      | none => simp [PathNode.name, PathNode.items, h]

theorem addSegs_changed {T : Type} (segs : List String) (n : PathNode T) (d : Option T) :
    (addSegs segs n d).2.1 = !pathExists n segs := by
  induction segs generalizing n with
  | nil => simp [addSegs, pathExists, nodeAt]
  | cons s rest ih =>
    simp only [addSegs]
    cases h : getItem s n.items with
    | some c => simp [pathExists, nodeAt, h, ih c, pathExists]
    | none => simp [pathExists, nodeAt, h]

theorem addSegs_count {T : Type} (segs : List String) (n : PathNode T) (d : Option T) :
    (addSegs segs n d).2.2 = missingCount n segs := by
  induction segs generalizing n with
  | nil => simp [addSegs, missingCount]
  | cons s rest ih =>
    simp only [addSegs]
    cases h : getItem s n.items with
    | some c => simp [missingCount, h, ih c]
    | none =>
      have hnew : missingCount (PathNode.new s none (T := T)) rest = rest.length := by
        cases rest with
        | nil => simp [missingCount]
        | cons a q => simp [missingCount, PathNode.new, PathNode.items, getItem]
      simp [missingCount, h, ih, hnew]

theorem name_mk {T : Type} (n : String) (d : Option T) (i : List (String × PathNode T)) :
    (PathNode.mk n d i).name = n := rfl

theorem data_mk {T : Type} (n : String) (d : Option T) (i : List (String × PathNode T)) :
    (PathNode.mk n d i).data = d := rfl

theorem items_mk {T : Type} (n : String) (d : Option T) (i : List (String × PathNode T)) :
    (PathNode.mk n d i).items = i := rfl

theorem numNodesItems_append {T : Type} (l1 l2 : List (String × PathNode T)) :
    numNodesItems (l1 ++ l2) = numNodesItems l1 + numNodesItems l2 := by
  induction l1 with
  | nil => simp [numNodesItems]
  | cons e rest ih => obtain ⟨a, c⟩ := e; simp [numNodesItems, ih]; omega

theorem numNodesItems_setItem {T : Type} (s : String) (c c' : PathNode T)
    (l : List (String × PathNode T)) (h : getItem s l = some c) :
    numNodesItems (setItem s c' l) + numNodes c = numNodesItems l + numNodes c' := by
  induction l with
  | nil => simp [getItem] at h
  | cons e rest ih =>
    obtain ⟨a, c2⟩ := e
    by_cases ha : a = s
    · subst ha
      simp [getItem] at h
      subst h
      simp [setItem, numNodesItems]
      omega
    · simp [getItem, ha] at h
      simp [setItem, ha, numNodesItems]
      have := ih h
      omega

theorem addSegs_numNodes {T : Type} (segs : List String) (n : PathNode T) (d : Option T) :
    numNodes (addSegs segs n d).1 = numNodes n + (addSegs segs n d).2.2 := by
  induction segs generalizing n with
  | nil => cases n; simp [addSegs, PathNode.set_data, numNodes, items_mk]
  | cons s rest ih =>
    cases n with
    | mk name dat items =>
      simp only [addSegs, items_mk]
      cases h : getItem s items with
      | some c =>
        simp only [numNodes]
        have hrep := numNodesItems_setItem s c (addSegs rest c d).1 items h
        have := ih c
        omega
      | none =>
        have habs : getItem s items = none := h
        simp only [numNodes, setItem_of_none _ _ _ habs, numNodesItems_append]
        have := ih (PathNode.new s none)
        simp [numNodesItems, PathNode.new, numNodes] at this ⊢
        omega

theorem nodeAt_addSegs {T : Type} (segs : List String) (n : PathNode T) (d : Option T) :
    ∃ m, nodeAt (addSegs segs n d).1 segs = some m ∧ m.data = d := by
  induction segs generalizing n with
  | nil => cases n; exact ⟨_, rfl, rfl⟩
  | cons s rest ih =>
    cases n with
    | mk name dat items =>
      simp only [addSegs, items_mk]
      cases h : getItem s items with
      | some c =>
        obtain ⟨m, hm, hd⟩ := ih c
        exact ⟨m, by simp [nodeAt, items_mk, getItem_setItem_self, hm], hd⟩
      | none =>
        obtain ⟨m, hm, hd⟩ := ih (PathNode.new s none)
        exact ⟨m, by simp [nodeAt, items_mk, getItem_setItem_self, hm], hd⟩

theorem pathExists_set_data {T : Type} (n : PathNode T) (d : Option T) (q : List String) :
    pathExists (n.set_data d) q = pathExists n q := by
  cases n with
  | mk name dat items =>
    cases q with
    | nil => rfl
    | cons a qr => simp [PathNode.set_data, pathExists, nodeAt, items_mk, name_mk]

theorem pathExists_new {T : Type} (s : String) (d : Option T) (q : List String) :
    pathExists (PathNode.new s d) q = decide (q = []) := by
  cases q with
  | nil => rfl
  | cons a qr => simp [PathNode.new, pathExists, nodeAt, items_mk, getItem]

theorem pathExists_addSegs {T : Type} (segs : List String) (n : PathNode T) (d : Option T)
    (q : List String) :
    pathExists (addSegs segs n d).1 q = (pathExists n q || isPre q segs) := by
  induction segs generalizing n q with
  | nil =>
    cases q with
    | nil => simp [addSegs, pathExists, nodeAt, isPre]
    | cons a qr => simp [addSegs, pathExists_set_data, isPre]
  | cons s rest ih =>
    cases n with
    | mk name dat items =>
      cases q with
      | nil => simp [pathExists, nodeAt, isPre]
      | cons a qr =>
        cases h : getItem s items with
        | some c =>
          simp only [addSegs, items_mk, name_mk, data_mk, h]
          by_cases has : a = s
          · subst has
            have hL : pathExists
                  (PathNode.mk name dat (setItem a (addSegs rest c d).1 items)) (a :: qr)
                = pathExists (addSegs rest c d).1 qr := by
              simp [pathExists, nodeAt, items_mk, getItem_setItem_self]
            have hR : pathExists (PathNode.mk name dat items) (a :: qr)
                = pathExists c qr := by
              simp [pathExists, nodeAt, items_mk, h]
            rw [hL, hR, ih c qr]
            simp [isPre]
          · have hne : getItem a (setItem s (addSegs rest c d).1 items) = getItem a items :=
              getItem_setItem_ne a s _ items has
            have hL : pathExists
                  (PathNode.mk name dat (setItem s (addSegs rest c d).1 items)) (a :: qr)
                = pathExists (PathNode.mk name dat items) (a :: qr) := by
              simp [pathExists, nodeAt, items_mk, hne]
            have hpre : isPre (a :: qr) (s :: rest) = false := by
              simp [isPre, has]
            rw [hL, hpre, Bool.or_false]
        | none =>
          simp only [addSegs, items_mk, name_mk, data_mk, h]
          by_cases has : a = s
          · subst has
            have hL : pathExists
                  (PathNode.mk name dat
                    (setItem a (addSegs rest (PathNode.new a none) d).1 items)) (a :: qr)
                = pathExists (addSegs rest (PathNode.new a none) d).1 qr := by
              simp [pathExists, nodeAt, items_mk, getItem_setItem_self]
            have hR : pathExists (PathNode.mk name dat items) (a :: qr) = false := by
              simp [pathExists, nodeAt, items_mk, h]
            rw [hL, hR, ih (PathNode.new a none) qr, pathExists_new]
            cases qr with
            | nil => simp [isPre]
            | cons b q2 => simp [isPre]
          · have hne : getItem a (setItem s (addSegs rest (PathNode.new s none) d).1 items)
                = getItem a items := getItem_setItem_ne a s _ items has
            have hL : pathExists
                  (PathNode.mk name dat
                    (setItem s (addSegs rest (PathNode.new s none) d).1 items)) (a :: qr)
                = pathExists (PathNode.mk name dat items) (a :: qr) := by
              simp [pathExists, nodeAt, items_mk, hne]
            have hpre : isPre (a :: qr) (s :: rest) = false := by
              simp [isPre, has]
            rw [hL, hpre, Bool.or_false]

/-! ### Well-formedness is preserved by insertion -/

theorem getItem_append_none {B : Type} (a : String) (l1 l2 : List (String × B))
    (h : getItem a l1 = none) : getItem a (l1 ++ l2) = getItem a l2 := by
  induction l1 with
  | nil => simp
  | cons e rest ih =>
    obtain ⟨b, c⟩ := e
    by_cases hb : b = a
    · simp [getItem, hb] at h
    · simp [getItem, hb] at h ⊢
      exact ih h

theorem wf_getItem {T : Type} {k : String} {c : PathNode T}
    {l : List (String × PathNode T)} (hwf : wfItems l = true) (h : getItem k l = some c) :
    c.name = k ∧ wfNode c = true := by
  induction l with
  | nil => simp [getItem] at h
  | cons e rest ih =>
    obtain ⟨a, c'⟩ := e
    simp only [wfItems, Bool.and_eq_true] at hwf
    by_cases ha : a = k
    · subst ha
      simp [getItem] at h
      subst h
      exact ⟨by simpa using hwf.1.1.1, hwf.1.2⟩
    · simp [getItem, ha] at h
      exact ih hwf.2 h

theorem mem_getItem {T : Type} {k : String} {c : PathNode T}
    {l : List (String × PathNode T)} (hwf : wfItems l = true) (h : (k, c) ∈ l) :
    getItem k l = some c := by
  induction l with
  | nil => simp at h
  | cons e rest ih =>
    obtain ⟨a, c'⟩ := e
    simp only [wfItems, Bool.and_eq_true] at hwf
    rcases List.mem_cons.1 h with h1 | h1
    · cases h1
      simp [getItem]
    · by_cases ha : a = k
      · subst ha
        have : getItem a rest ≠ none := by
          intro hn
          exact ((getItem_eq_none_iff a rest).1 hn (a, c) h1) rfl
        exact absurd (Option.isNone_iff_eq_none.1 (by simpa using hwf.1.1.2)) this
      · simp [getItem, ha]
        exact ih hwf.2 h1

theorem wfItems_setItem {T : Type} {k : String} {c v : PathNode T}
    {l : List (String × PathNode T)} (hwf : wfItems l = true) (h : getItem k l = some c)
    (hname : v.name = k) (hv : wfNode v = true) : wfItems (setItem k v l) = true := by
  induction l with
  | nil => simp [getItem] at h
  | cons e rest ih =>
    obtain ⟨a, c'⟩ := e
    simp only [wfItems, Bool.and_eq_true] at hwf
    by_cases ha : a = k
    · subst ha
      simp only [setItem, if_pos rfl, wfItems, Bool.and_eq_true]
      exact ⟨⟨⟨by simp [hname], hwf.1.1.2⟩, hv⟩, hwf.2⟩
    · simp [getItem, ha] at h
      simp only [setItem, if_neg ha, wfItems, Bool.and_eq_true]
      refine ⟨⟨⟨hwf.1.1.1, ?_⟩, hwf.1.2⟩, ih hwf.2 h⟩
      rw [getItem_setItem_ne a k v rest ha]
      exact hwf.1.1.2

theorem wfItems_append {T : Type} {k : String} {v : PathNode T}
    {l : List (String × PathNode T)} (hwf : wfItems l = true) (h : getItem k l = none)
    (hname : v.name = k) (hv : wfNode v = true) : wfItems (l ++ [(k, v)]) = true := by
  induction l with
  | nil => simp [wfItems, hname, hv, getItem]
  | cons e rest ih =>
    obtain ⟨a, c'⟩ := e
    simp only [wfItems, Bool.and_eq_true] at hwf
    by_cases ha : a = k
    · simp [getItem, ha] at h
    · simp [getItem, ha] at h
      simp only [List.cons_append, wfItems, Bool.and_eq_true]
      refine ⟨⟨⟨hwf.1.1.1, ?_⟩, hwf.1.2⟩, ih hwf.2 h⟩
      show (getItem a (rest ++ [(k, v)])).isNone = true
      rw [getItem_append_none a rest [(k, v)]
        (Option.isNone_iff_eq_none.1 hwf.1.1.2)]
      simp [getItem]
      exact fun hh => ha hh.symm

theorem addSegs_wf {T : Type} (segs : List String) (n : PathNode T) (d : Option T)
    (hwf : wfNode n = true) : wfNode (addSegs segs n d).1 = true := by
  induction segs generalizing n with
  | nil =>
    cases n with
    | mk name dat items =>
      simpa [addSegs, PathNode.set_data, wfNode, items_mk, name_mk] using hwf
  | cons s rest ih =>
    cases n with
    | mk name dat items =>
      simp only [wfNode] at hwf
      cases h : getItem s items with
      | some c =>
        simp only [addSegs, items_mk, h, wfNode]
        obtain ⟨hcn, hcwf⟩ := wf_getItem hwf h
        exact wfItems_setItem hwf h (by rw [addSegs_name, hcn]) (ih c hcwf)
      | none =>
        simp only [addSegs, items_mk, h, wfNode]
        rw [setItem_of_none s _ items h]
        have hnwf : wfNode (PathNode.new s (none : Option T)) = true := by
          simp [PathNode.new, wfNode, wfItems]
        exact wfItems_append hwf h
          (by rw [addSegs_name]; simp [PathNode.new, name_mk]) (ih _ hnwf)

/-! ### The traversal: the push/pop discipline and the pure value -/

theorem pathPop_concat (cd : List String) (x : String) (h : cd ≠ []) :
    pathPop (cd ++ [x]) = cd := by
  unfold pathPop
  rw [if_neg, List.dropLast_concat]
  intro hh
  have : (cd ++ [x]).length = 1 := by rw [hh]; rfl
  simp at this
  exact h this

mutual

theorem walk_inner_eq {T : Type} (n : PathNode T) (cd : List String)
    (out : List (List String)) :
    walk_inner n cd out = (pathPop (cd ++ [n.name]), out ++ walkPure n cd) :=
  match n with
  | .mk name dat items =>
    match items with
    | [] => by simp [walk_inner, walkPure, name_mk]
    | e :: rest => by
      have h1 := walkItems_eq (e :: rest) (cd ++ [name]) out (by simp)
      simp [walk_inner, walkPure, name_mk, h1]

theorem walkItems_eq {T : Type} (l : List (String × PathNode T)) (cd : List String)
    (out : List (List String)) (hcd : cd ≠ []) :
    walkItems l cd out = (cd, out ++ walkPureItems l cd) :=
  match l with
  | [] => by simp [walkItems, walkPureItems]
  | (k, c) :: rest => by
    have h1 := walk_inner_eq c cd out
    have h2 := walkItems_eq rest cd (out ++ walkPure c cd) hcd
    simp [walkItems, walkPureItems, h1, h2, pathPop_concat cd c.name hcd]

end

theorem walk_eq_walkPure {T : Type} (s : PathStore T) : s.walk = walkPure s.root [] := by
  simp [PathStore.walk, walk_inner_eq]

theorem mem_walkPureItems {T : Type} (l : List (String × PathNode T)) (cd : List String)
    (x : List String) :
    x ∈ walkPureItems l cd ↔ ∃ p ∈ l, x ∈ walkPure p.2 cd := by
  induction l with
  | nil => simp [walkPureItems]
  | cons e rest ih =>
    obtain ⟨k, c⟩ := e
    simp [walkPureItems, ih]

mutual

theorem mem_walkPure {T : Type} (n : PathNode T) (cd : List String) (x : List String)
    (hwf : wfNode n = true) :
    x ∈ walkPure n cd ↔
      ∃ q m, nodeAt n q = some m ∧ m.items = [] ∧ x = (cd ++ [n.name]) ++ q :=
  match n with
  | .mk name dat items =>
    match hitems : items with
    | [] => by
      constructor
      · intro hx
        simp [walkPure] at hx
        exact ⟨[], PathNode.mk name dat [], rfl, rfl, by simp [hx, name_mk]⟩
      · rintro ⟨q, m, hq, hm, hx⟩
        cases q with
        | nil =>
          simp [nodeAt] at hq
          simp [walkPure, hx, name_mk]
        | cons a qr => simp [nodeAt, items_mk, getItem] at hq
    | e :: rest => by
      have hwf2 : wfItems (e :: rest) = true := by
        simpa [wfNode, hitems] using hwf
      have hchar := mem_walkPureItems_char (e :: rest) (cd ++ [name]) x hwf2
      constructor
      · intro hx
        simp only [walkPure, name_mk] at hx
        obtain ⟨k, c, hget, q, m, hq, hm, hxeq⟩ := hchar.1 hx
        refine ⟨k :: q, m, ?_, hm, ?_⟩
        · simp [nodeAt, items_mk, hget, hq]
        · simp [hxeq, name_mk]
      · rintro ⟨q, m, hq, hm, hx⟩
        cases q with
        | nil =>
          simp [nodeAt] at hq
          rw [← hq] at hm
          simp [items_mk] at hm
        | cons a qr =>
          simp only [nodeAt, items_mk] at hq
          cases hget : getItem a (e :: rest) with
          | none => rw [hget] at hq; simp at hq
          | some c =>
            rw [hget] at hq
            simp only [walkPure, name_mk]
            exact hchar.2 ⟨a, c, hget, qr, m, hq, hm, by simp [hx, name_mk]⟩

theorem mem_walkPureItems_char {T : Type} (l : List (String × PathNode T))
    (cd : List String) (x : List String) (hwf : wfItems l = true) :
    x ∈ walkPureItems l cd ↔
      ∃ k c, getItem k l = some c ∧
        ∃ q m, nodeAt c q = some m ∧ m.items = [] ∧ x = (cd ++ [k]) ++ q :=
  match l with
  | [] => by simp [walkPureItems, getItem]
  | (k0, c0) :: rest => by
    have hwfs : (c0.name = k0 ∧ (getItem k0 rest).isNone = true) ∧
        wfNode c0 = true ∧ wfItems rest = true := by
      have := hwf
      simp only [wfItems, Bool.and_eq_true] at this
      exact ⟨⟨by simpa using this.1.1.1, this.1.1.2⟩, this.1.2, this.2⟩
    have hhead := mem_walkPure c0 cd x hwfs.2.1
    have htail := mem_walkPureItems_char rest cd x hwfs.2.2
    constructor
    · intro hx
      simp only [walkPureItems, List.mem_append] at hx
      rcases hx with hx | hx
      · obtain ⟨q, m, hq, hm, hxeq⟩ := hhead.1 hx
        exact ⟨k0, c0, by simp [getItem], q, m, hq, hm, by rw [hxeq, hwfs.1.1]⟩
      · obtain ⟨k, c, hget, q, m, hq, hm, hxeq⟩ := htail.1 hx
        refine ⟨k, c, ?_, q, m, hq, hm, hxeq⟩
        have hk0 : k0 ≠ k := by
          intro hh
          subst hh
          rw [Option.isNone_iff_eq_none.1 hwfs.1.2] at hget
          cases hget
        simp only [getItem, if_neg hk0]
        exact hget
    · rintro ⟨k, c, hget, q, m, hq, hm, hxeq⟩
      simp only [walkPureItems, List.mem_append]
      by_cases hk : k0 = k
      · subst hk
        simp [getItem] at hget
        subst hget
        exact Or.inl (hhead.2 ⟨q, m, hq, hm, by rw [hxeq, hwfs.1.1]⟩)
      · simp [getItem, hk] at hget
        exact Or.inr (htail.2 ⟨k, c, hget, q, m, hq, hm, hxeq⟩)

end

mutual

theorem walkPure_nodup {T : Type} (n : PathNode T) (cd : List String)
    (hwf : wfNode n = true) : (walkPure n cd).Nodup :=
  match n with
  | .mk name dat items =>
    match hitems : items with
    | [] => by simp [walkPure]
    | e :: rest => by
      have hwf2 : wfItems (e :: rest) = true := by
        simpa [wfNode, hitems] using hwf
      simp only [walkPure, name_mk]
      exact walkPureItems_nodup (e :: rest) (cd ++ [name]) hwf2

theorem walkPureItems_nodup {T : Type} (l : List (String × PathNode T))
    (cd : List String) (hwf : wfItems l = true) : (walkPureItems l cd).Nodup :=
  match l with
  | [] => by simp [walkPureItems]
  | (k0, c0) :: rest => by
    have hwfs : (c0.name = k0 ∧ (getItem k0 rest).isNone = true) ∧
        wfNode c0 = true ∧ wfItems rest = true := by
      have := hwf
      simp only [wfItems, Bool.and_eq_true] at this
      exact ⟨⟨by simpa using this.1.1.1, this.1.1.2⟩, this.1.2, this.2⟩
    simp only [walkPureItems]
    refine List.Nodup.append (walkPure_nodup c0 cd hwfs.2.1)
      (walkPureItems_nodup rest cd hwfs.2.2) ?_
    intro x hx1 hx2
    obtain ⟨q1, m1, _, _, hxeq1⟩ := (mem_walkPure c0 cd x hwfs.2.1).1 hx1
    obtain ⟨k, c, hget, q2, m2, _, _, hxeq2⟩ :=
      (mem_walkPureItems_char rest cd x hwfs.2.2).1 hx2
    have hk0 : k0 ≠ k := by
      intro hh
      subst hh
      rw [Option.isNone_iff_eq_none.1 hwfs.1.2] at hget
      cases hget
    rw [hxeq1, hwfs.1.1] at hxeq2
    have : (k0 :: q1) = (k :: q2) := by
      have h3 : cd ++ (k0 :: q1) = cd ++ (k :: q2) := by simpa using hxeq2
      exact List.append_cancel_left h3
    exact hk0 (by injection this)

end

/-! ### Store-level lemmas: the reachable-state invariant and folds -/

theorem step_add_eq {T : Type} (s : PathStore T) (p : InputPath) (d : Option T)
    (h : p.absolute = true) :
    (step s (.addOp p d)).1
      = ⟨(addSegs p.segments s.root d).1, s.size + (addSegs p.segments s.root d).2.2⟩ := by
  simp [step, PathStore.add_path, h]

theorem step_add_eq_of_relative {T : Type} (s : PathStore T) (p : InputPath) (d : Option T)
    (h : p.absolute = false) : (step s (.addOp p d)).1 = s := by
  simp [step, PathStore.add_path, h]

theorem storeWF_new {T : Type} (d : Option T) : StoreWF (PathStore.new d) := by
  refine ⟨rfl, rfl, ?_⟩
  simp [PathStore.new, PathNode.root, numNodes, numNodesItems]

theorem storeWF_step {T : Type} (s : PathStore T) (p : InputPath) (d : Option T)
    (h : StoreWF s) : StoreWF (step s (.addOp p d)).1 := by
  cases habs : p.absolute with
  | false => rw [step_add_eq_of_relative s p d habs]; exact h
  | true =>
    rw [step_add_eq s p d habs]
    refine ⟨addSegs_wf _ _ _ h.1, ?_, ?_⟩
    · rw [addSegs_name]; exact h.2.1
    · have := addSegs_numNodes p.segments s.root d
      have h2 := h.2.2
      simp only at this ⊢
      omega

theorem storeWF_runAdds {T : Type} (s : PathStore T) (L : List (InputPath × Option T))
    (h : StoreWF s) : StoreWF (runAdds s L) := by
  induction L generalizing s with
  | nil => exact h
  | cons pd rest ih =>
    obtain ⟨p, d⟩ := pd
    exact ih _ (storeWF_step s p d h)

theorem runAdds_append {T : Type} (s : PathStore T) (L1 L2 : List (InputPath × Option T)) :
    runAdds s (L1 ++ L2) = runAdds (runAdds s L1) L2 := by
  induction L1 generalizing s with
  | nil => rfl
  | cons pd rest ih =>
    obtain ⟨p, d⟩ := pd
    simp [runAdds, ih]

theorem isPre_refl {α : Type} [DecidableEq α] (l : List α) : isPre l l = true := by
  induction l with
  | nil => rfl
  | cons a rest ih => simp [isPre, ih]

theorem isPre_iff {α : Type} [DecidableEq α] (p q : List α) :
    isPre p q = true ↔ ∃ t, p ++ t = q := by
  induction p generalizing q with
  | nil => simp [isPre]
  | cons a p' ih =>
    cases q with
    | nil =>
      simp [isPre]
    | cons b q' =>
      simp only [isPre, Bool.and_eq_true, beq_iff_eq, ih, List.cons_append]
      constructor
      · rintro ⟨rfl, t, rfl⟩
        exact ⟨t, rfl⟩
      · rintro ⟨t, ht⟩
        injection ht with h1 h2
        exact ⟨h1, t, h2⟩

theorem missingCount_eq_zero_iff {T : Type} (n : PathNode T) (segs : List String) :
    missingCount n segs = 0 ↔ pathExists n segs = true := by
  induction segs generalizing n with
  | nil => simp [missingCount, pathExists, nodeAt]
  | cons s rest ih =>
    cases h : getItem s n.items with
    | some c => simp [missingCount, h, ih c, pathExists, nodeAt]
    | none => simp [missingCount, h, pathExists, nodeAt]

theorem nodeAt_append {T : Type} (n : PathNode T) (q1 q2 : List String) :
    nodeAt n (q1 ++ q2) = (nodeAt n q1).bind (fun m => nodeAt m q2) := by
  induction q1 generalizing n with
  | nil => simp [nodeAt]
  | cons s rest ih =>
    simp only [List.cons_append, nodeAt]
    cases h : getItem s n.items with
    | some c => simp [ih c]
    | none => simp

theorem items_eq_nil_iff_no_child {T : Type} (t : PathNode T) (q : List String)
    (m : PathNode T) (h : nodeAt t q = some m) :
    m.items = [] ↔ ∀ a, pathExists t (q ++ [a]) = false := by
  have key : ∀ a, pathExists t (q ++ [a]) = (getItem a m.items).isSome := by
    intro a
    simp only [pathExists, nodeAt_append, h, Option.some_bind, nodeAt]
    cases hg : getItem a m.items with
    | some c => simp [hg, nodeAt]
    | none => simp [hg]
  constructor
  · intro hm a
    rw [key a, hm]
    simp [getItem]
  · intro hall
    cases hm : m.items with
    | nil => rfl
    | cons e r =>
      obtain ⟨k, c⟩ := e
      have := hall k
      rw [key k, hm] at this
      simp [getItem] at this

theorem pathExists_new_store {T : Type} (d0 : Option T) (q : List String) :
    pathExists (PathStore.new d0).root q = decide (q = []) := by
  cases q with
  | nil => simp [pathExists, nodeAt]
  | cons a qr => simp [PathStore.new, PathNode.root, pathExists, nodeAt, items_mk, getItem]

theorem pathExists_runAdds {T : Type} (L : List (InputPath × Option T)) (s : PathStore T)
    (habs : ∀ pd ∈ L, pd.1.absolute = true) (q : List String) :
    pathExists (runAdds s L).root q
      = (pathExists s.root q || L.any (fun pd => isPre q pd.1.segments)) := by
  induction L generalizing s with
  | nil => simp [runAdds]
  | cons pd rest ih =>
    obtain ⟨p, d⟩ := pd
    have hp : p.absolute = true := habs (p, d) (by simp)
    have hrest : ∀ pd ∈ rest, pd.1.absolute = true := fun x hx => habs x (by simp [hx])
    simp only [runAdds]
    rw [ih _ hrest, step_add_eq s p d hp]
    simp only [pathExists_addSegs, List.any_cons]
    rw [Bool.or_assoc]

/-- Shared characterization of `walk` on any reachable store: its entries are
exactly the `"/"`-rooted full paths of the nodes with empty child maps, and
no path is reported twice. -/
theorem walk_char_runAdds {T : Type} (L : List (InputPath × Option T)) (d0 : Option T) :
    (∀ l, l ∈ (runAdds (PathStore.new d0) L).walk ↔
        ∃ q m, nodeAt (runAdds (PathStore.new d0) L).root q = some m
          ∧ m.items = [] ∧ l = "/" :: q)
    ∧ ((runAdds (PathStore.new d0) L).walk).Nodup := by
  have hwf := storeWF_runAdds (PathStore.new d0) L (storeWF_new d0)
  constructor
  · intro l
    rw [walk_eq_walkPure,
      mem_walkPure (runAdds (PathStore.new d0) L).root [] l hwf.1, hwf.2.1]
    simp
  · rw [walk_eq_walkPure]
    exact walkPure_nodup _ [] hwf.1

/-- On a store built by inserting exactly the absolute paths of a nonempty
prefix-free family `L`, the nodes with empty child maps sit exactly at the
members of `L`. -/
theorem leaf_iff_mem {T : Type} (L : List (List String)) (d0 : Option T)
    (f : List String → Option T) (hne : L ≠ [])
    (hanti : ∀ p1 ∈ L, ∀ p2 ∈ L, isPre p1 p2 = true → p1 = p2) (q : List String) :
    (∃ m, nodeAt (runAdds (PathStore.new d0)
          (L.map fun p => (⟨true, p⟩, f p))).root q = some m ∧ m.items = [])
      ↔ q ∈ L := by
  have habs : ∀ pd ∈ (L.map fun p => ((⟨true, p⟩ : InputPath), f p)),
      pd.1.absolute = true := by
    intro pd hpd
    simp only [List.mem_map] at hpd
    obtain ⟨p, _, rfl⟩ := hpd
    rfl
  have hE : ∀ r, pathExists (runAdds (PathStore.new d0)
        (L.map fun p => (⟨true, p⟩, f p))).root r = true
      ↔ (r = [] ∨ ∃ p ∈ L, isPre r p = true) := by
    intro r
    rw [pathExists_runAdds _ _ habs r, pathExists_new_store]
    simp [List.any_map, List.any_eq_true, Function.comp]
  constructor
  · rintro ⟨m, hm, hmi⟩
    have hEq := (hE q).1 (by simp [pathExists, hm])
    have hnochild := (items_eq_nil_iff_no_child _ q m hm).1 hmi
    have hnc : ∀ a, ¬ (∃ p ∈ L, isPre (q ++ [a]) p = true) := by
      intro a hcon
      have := (hE (q ++ [a])).2 (Or.inr hcon)
      rw [hnochild a] at this
      cases this
    rcases hEq with rfl | ⟨p, hp, hpre⟩
    · obtain ⟨p0, hp0⟩ := List.exists_mem_of_ne_nil L hne
      cases hp0s : p0 with
      | nil => rw [← hp0s]; exact hp0
      | cons a rest =>
        exfalso
        refine hnc a ⟨p0, hp0, ?_⟩
        rw [hp0s]
        simp [isPre]
    · obtain ⟨t, rfl⟩ := (isPre_iff q p).1 hpre
      cases t with
      | nil => simpa using hp
      | cons a t' =>
        exfalso
        refine hnc a ⟨q ++ a :: t', hp, ?_⟩
        exact (isPre_iff _ _).2 ⟨t', by simp⟩
  · intro hq
    have hEq : pathExists (runAdds (PathStore.new d0)
        (L.map fun p => (⟨true, p⟩, f p))).root q = true :=
      (hE q).2 (Or.inr ⟨q, hq, isPre_refl q⟩)
    obtain ⟨m, hm⟩ : ∃ m, nodeAt (runAdds (PathStore.new d0)
        (L.map fun p => (⟨true, p⟩, f p))).root q = some m :=
      Option.isSome_iff_exists.1 (by simpa [pathExists] using hEq)
    refine ⟨m, hm, (items_eq_nil_iff_no_child _ q m hm).2 ?_⟩
    intro a
    cases hb : pathExists (runAdds (PathStore.new d0)
        (L.map fun p => (⟨true, p⟩, f p))).root (q ++ [a]) with
    | false => rfl
    | true =>
      exfalso
      rcases (hE _).1 hb with h1 | ⟨p, hp, hpre⟩
      · simp at h1
      · obtain ⟨t, ht⟩ := (isPre_iff _ p).1 hpre
        have hqp : isPre q p = true := (isPre_iff q p).2 ⟨a :: t, by rw [← ht]; simp⟩
        have hqe : q = p := hanti q hq p hp hqp
        rw [← hqe] at ht
        have := congrArg List.length ht
        simp at this

/-! ### Arena lemmas -/

theorem append_single_get {α : Type} (l : List α) (t : α) (j : Nat) :
    (l ++ [t])[j]? = if j = l.length then some t else l[j]? := by
  induction l generalizing j with
  | nil => cases j <;> simp
  | cons a rest ih =>
    cases j with
    | zero => simp
    | succ j => simpa using ih j

theorem set_get {α : Type} (l : List α) (i : Nat) (x : α) (j : Nat) :
    (l.set i x)[j]? = if j = i ∧ i < l.length then some x else l[j]? := by
  induction l generalizing i j with
  | nil => simp
  | cons a rest ih =>
    cases i with
    | zero =>
      cases j with
      | zero => simp
      | succ j => simp
    | succ i =>
      cases j with
      | zero => simp
      | succ j =>
        simp only [List.set_cons_succ, List.getElem?_cons_succ, ih, List.length_cons]
        by_cases hj : j = i ∧ i < rest.length
        · rw [if_pos hj, if_pos ⟨by omega, by omega⟩]
        · rw [if_neg hj, if_neg (by omega)]

theorem arenaGet_lt {α : Type} (l : List α) (j : Nat) (x : α) (h : l[j]? = some x) :
    j < l.length := by
  induction l generalizing j with
  | nil => simp at h
  | cons a rest ih =>
    cases j with
    | zero => simp
    | succ j => simpa using ih j (by simpa using h)

theorem entriesOf_cons {T : Type} (nd : ANode T) (rest : List (ANode T)) :
    entriesOf (nd :: rest) = nd.items ++ entriesOf rest := by
  simp [entriesOf]

theorem entriesOf_append {T : Type} (l1 l2 : List (ANode T)) :
    entriesOf (l1 ++ l2) = entriesOf l1 ++ entriesOf l2 := by
  simp [entriesOf]

theorem mem_entriesOf {T : Type} (p : String × Nat) (nodes : List (ANode T)) :
    p ∈ entriesOf nodes ↔ ∃ (j : Nat) (n : ANode T), nodes[j]? = some n ∧ p ∈ n.items := by
  induction nodes with
  | nil =>
    simp only [entriesOf, List.map_nil, List.flatten_nil, List.not_mem_nil, false_iff]
    rintro ⟨j, n, hj, _⟩
    simp at hj
  | cons nd rest ih =>
    rw [entriesOf_cons]
    simp only [List.mem_append, ih]
    constructor
    · rintro (h | ⟨j, n, hj, hp⟩)
      · exact ⟨0, nd, by simp, h⟩
      · exact ⟨j + 1, n, by simpa using hj, hp⟩
    · rintro ⟨j, n, hj, hp⟩
      cases j with
      | zero =>
        simp only [List.getElem?_cons_zero, Option.some.injEq] at hj
        subst hj
        exact Or.inl hp
      | succ j =>
        exact Or.inr ⟨j, n, by simpa using hj, hp⟩

theorem entriesOf_set_perm {T : Type} (nodes : List (ANode T)) (cur : Nat)
    (n n' : ANode T) (l : List (String × Nat)) (h : nodes[cur]? = some n)
    (hn' : n'.items = n.items ++ l) :
    (entriesOf (nodes.set cur n')).Perm (entriesOf nodes ++ l) := by
  induction nodes generalizing cur with
  | nil => simp at h
  | cons nd rest ih =>
    cases cur with
    | zero =>
      simp only [List.getElem?_cons_zero, Option.some.injEq] at h
      subst h
      simp only [List.set_cons_zero, entriesOf_cons, hn']
      rw [List.append_assoc, List.append_assoc]
      exact List.Perm.append_left nd.items List.perm_append_comm
    | succ cur =>
      simp only [List.getElem?_cons_succ] at h
      simp only [List.set_cons_succ, entriesOf_cons]
      rw [List.append_assoc]
      exact List.Perm.append_left nd.items (ih cur h)

theorem countReg_of_perm {T : Type} (i : Nat) (nodes : List (ANode T))
    (l : List (String × Nat)) (h : (entriesOf nodes).Perm l) :
    countReg i nodes = (l.map Prod.snd).count i := by
  unfold countReg
  exact (h.map Prod.snd).count_eq i

theorem countReg_zero_of_ge {T : Type} (nodes : List (ANode T)) (i : Nat)
    (hinv : AInv nodes) (hi : nodes.length ≤ i) : countReg i nodes = 0 := by
  by_contra hc
  have hpos : 0 < ((entriesOf nodes).map Prod.snd).count i := Nat.pos_of_ne_zero hc
  have hmem : i ∈ (entriesOf nodes).map Prod.snd := List.count_pos_iff.1 hpos
  obtain ⟨⟨k, i'⟩, hp, hip⟩ := List.mem_map.1 hmem
  simp only at hip
  subst hip
  obtain ⟨j, m, hj, hkm⟩ := (mem_entriesOf _ _).1 hp
  obtain ⟨_, c, hci, _, _⟩ := hinv.entriesValid j m hj k i' hkm
  have := arenaGet_lt nodes i' c hci
  omega

theorem AInv_create {T : Type} (nodes : List (ANode T)) (cur : Nat) (n : ANode T)
    (s : String) (hc : nodes[cur]? = some n) (hget : getItem s n.items = none)
    (hinv : AInv nodes) :
    AInv ((nodes ++ [(⟨s, none, [], some cur⟩ : ANode T)]).set cur
      { n with items := setItem s nodes.length n.items }) := by
  have hcur : cur < nodes.length := arenaGet_lt nodes cur n hc
  have hNpos : 0 < nodes.length := List.length_pos.2 hinv.nonempty
  have hitems : ({ n with items := setItem s nodes.length n.items } : ANode T).items
      = n.items ++ [(s, nodes.length)] := by
    simp [setItem_of_none _ _ _ hget]
  have hacc : ∀ j, ((nodes ++ [(⟨s, none, [], some cur⟩ : ANode T)]).set cur
        { n with items := setItem s nodes.length n.items })[j]?
      = if j = cur then some { n with items := setItem s nodes.length n.items }
        else if j = nodes.length then some ⟨s, none, [], some cur⟩ else nodes[j]? := by
    intro j
    have hlen : cur < (nodes ++ [(⟨s, none, [], some cur⟩ : ANode T)]).length := by
      simp
      omega
    rw [set_get]
    by_cases hj : j = cur
    · subst hj
      rw [if_pos ⟨rfl, hlen⟩, if_pos rfl]
    · rw [if_neg (fun hh => hj hh.1), if_neg hj, append_single_get]
  have hone : (nodes ++ [(⟨s, none, [], some cur⟩ : ANode T)])[cur]? = some n := by
    rw [append_single_get, if_neg (by omega)]
    exact hc
  have hperm : (entriesOf ((nodes ++ [(⟨s, none, [], some cur⟩ : ANode T)]).set cur
        { n with items := setItem s nodes.length n.items })).Perm
      (entriesOf nodes ++ [(s, nodes.length)]) := by
    have h2 := entriesOf_set_perm _ cur n _ [(s, nodes.length)] hone hitems
    rw [entriesOf_append] at h2
    simpa [entriesOf_cons, entriesOf] using h2
  have hcount : ∀ i, countReg i ((nodes ++ [(⟨s, none, [], some cur⟩ : ANode T)]).set cur
        { n with items := setItem s nodes.length n.items })
      = countReg i nodes + (if nodes.length = i then 1 else 0) := by
    intro i
    rw [countReg_of_perm i _ _ hperm]
    simp [countReg, List.count_append, List.count_singleton']
  have hNcount : countReg nodes.length nodes = 0 :=
    countReg_zero_of_ge nodes nodes.length hinv (le_refl _)
  have hchild : ∀ (j0 : Nat) (k0 : String) (i0 : Nat),
      (∃ c, nodes[i0]? = some c ∧ c.name = k0 ∧ c.parent = some j0) →
      ∃ c, ((nodes ++ [(⟨s, none, [], some cur⟩ : ANode T)]).set cur
          { n with items := setItem s nodes.length n.items })[i0]? = some c
        ∧ c.name = k0 ∧ c.parent = some j0 := by
    rintro j0 k0 i0 ⟨c, hci, hcn, hcp⟩
    rw [hacc i0]
    by_cases hic : i0 = cur
    · subst hic
      rw [hc] at hci
      injection hci with hh
      subst hh
      exact ⟨_, by rw [if_pos rfl], by simpa using hcn, by simpa using hcp⟩
    · have hiN : i0 ≠ nodes.length := by
        intro hh
        rw [hh] at hci
        have := arenaGet_lt nodes nodes.length c hci
        omega
      rw [if_neg hic, if_neg hiN]
      exact ⟨c, hci, hcn, hcp⟩
  refine ⟨?_, ?_, ?_, ?_, ?_⟩
  · apply List.length_pos.1
    simp
  · intro r hr
    rw [hacc 0] at hr
    by_cases h0 : (0 : Nat) = cur
    · rw [if_pos h0] at hr
      injection hr with hr
      have hroot := hinv.rootParent n (by rw [h0]; exact hc)
      rw [← hr]
      simpa using hroot
    · rw [if_neg h0, if_neg (by omega)] at hr
      exact hinv.rootParent r hr
  · intro j m hj k i hki
    rw [hacc j] at hj
    by_cases hjc : j = cur
    · rw [if_pos hjc] at hj
      injection hj with hj
      rw [← hj] at hki
      rw [hitems] at hki
      rcases List.mem_append.1 hki with hold | hnew
      · obtain ⟨hi0, hcex⟩ := hinv.entriesValid cur n hc k i hold
        refine ⟨hi0, ?_⟩
        rw [hjc]
        exact hchild cur k i hcex
      · simp only [List.mem_singleton, Prod.mk.injEq] at hnew
        obtain ⟨hk, hi⟩ := hnew
        refine ⟨?_, ⟨⟨s, none, [], some cur⟩, ?_, ?_, ?_⟩⟩
        · rw [hi]
          omega
        · rw [hi, hacc nodes.length, if_neg (by omega), if_pos rfl]
        · exact hk.symm
        · rw [hjc]
    · rw [if_neg hjc] at hj
      by_cases hjN : j = nodes.length
      · rw [if_pos hjN] at hj
        injection hj with hj
        rw [← hj] at hki
        simp at hki
      · rw [if_neg hjN] at hj
        obtain ⟨hi0, hcex⟩ := hinv.entriesValid j m hj k i hki
        exact ⟨hi0, hchild j k i hcex⟩
  · intro i
    rw [hcount i]
    by_cases hiN : nodes.length = i
    · rw [if_pos hiN, ← hiN, hNcount]
    · rw [if_neg hiN]
      have := hinv.regUnique i
      omega
  · intro i hpos hlen
    rw [hcount i]
    simp only [List.length_set, List.length_append, List.length_singleton] at hlen
    by_cases hiN : nodes.length = i
    · rw [if_pos hiN, ← hiN, hNcount]
    · rw [if_neg hiN]
      have := hinv.regComplete i hpos (by omega)
      omega

theorem AInv_set_data {T : Type} (nodes : List (ANode T)) (j0 : Nat) (n : ANode T)
    (d : Option T) (hj0 : nodes[j0]? = some n) (hinv : AInv nodes) :
    AInv (nodes.set j0 { n with data := d }) := by
  have hlt : j0 < nodes.length := arenaGet_lt nodes j0 n hj0
  have hacc : ∀ j, (nodes.set j0 { n with data := d })[j]?
      = if j = j0 then some { n with data := d } else nodes[j]? := by
    intro j
    rw [set_get]
    by_cases hj : j = j0
    · subst hj
      rw [if_pos ⟨rfl, hlt⟩, if_pos rfl]
    · rw [if_neg (fun hh => hj hh.1), if_neg hj]
  have hperm : (entriesOf (nodes.set j0 { n with data := d })).Perm (entriesOf nodes) := by
    have h2 := entriesOf_set_perm nodes j0 n { n with data := d } [] hj0 (by simp)
    simpa using h2
  have hcount : ∀ i, countReg i (nodes.set j0 { n with data := d }) = countReg i nodes := by
    intro i
    rw [countReg_of_perm i _ _ hperm]
    rfl
  have hchild : ∀ (j1 : Nat) (k0 : String) (i0 : Nat),
      (∃ c, nodes[i0]? = some c ∧ c.name = k0 ∧ c.parent = some j1) →
      ∃ c, (nodes.set j0 { n with data := d })[i0]? = some c
        ∧ c.name = k0 ∧ c.parent = some j1 := by
    rintro j1 k0 i0 ⟨c, hci, hcn, hcp⟩
    rw [hacc i0]
    by_cases hic : i0 = j0
    · subst hic
      rw [hj0] at hci
      injection hci with hh
      subst hh
      exact ⟨_, by rw [if_pos rfl], by simpa using hcn, by simpa using hcp⟩
    · rw [if_neg hic]
      exact ⟨c, hci, hcn, hcp⟩
  refine ⟨?_, ?_, ?_, ?_, ?_⟩
  · apply List.length_pos.1
    simpa using List.length_pos.2 hinv.nonempty
  · intro r hr
    rw [hacc 0] at hr
    by_cases h0 : (0 : Nat) = j0
    · rw [if_pos h0] at hr
      injection hr with hr
      have hroot := hinv.rootParent n (by rw [h0]; exact hj0)
      rw [← hr]
      simpa using hroot
    · rw [if_neg h0] at hr
      exact hinv.rootParent r hr
  · intro j m hj k i hki
    rw [hacc j] at hj
    by_cases hjc : j = j0
    · rw [if_pos hjc] at hj
      injection hj with hj
      rw [← hj] at hki
      obtain ⟨hi0, hcex⟩ := hinv.entriesValid j0 n hj0 k i hki
      refine ⟨hi0, ?_⟩
      rw [hjc]
      exact hchild j0 k i hcex
    · rw [if_neg hjc] at hj
      obtain ⟨hi0, hcex⟩ := hinv.entriesValid j m hj k i hki
      exact ⟨hi0, hchild j k i hcex⟩
  · intro i
    rw [hcount i]
    exact hinv.regUnique i
  · intro i hpos hlen
    rw [hcount i]
    simp only [List.length_set] at hlen
    exact hinv.regComplete i hpos hlen

theorem addSegsA_inv {T : Type} (segs : List String) (cur : Nat) (nodes : List (ANode T))
    (hinv : AInv nodes) (hcur : cur < nodes.length) :
    AInv (addSegsA segs cur nodes).1
      ∧ (addSegsA segs cur nodes).2.1 < (addSegsA segs cur nodes).1.length := by
  induction segs generalizing cur nodes with
  | nil => exact ⟨hinv, hcur⟩
  | cons s rest ih =>
    have hs : nodes[cur]? = some nodes[cur] := List.getElem?_eq_getElem hcur
    simp only [addSegsA, hs]
    cases hg : getItem s (nodes[cur]).items with
    | some i =>
      have hmem := getItem_mem hg
      obtain ⟨_, c, hci, _, _⟩ := hinv.entriesValid cur nodes[cur] hs s i hmem
      exact ih i nodes hinv (arenaGet_lt nodes i c hci)
    | none =>
      have hinv' := AInv_create nodes cur nodes[cur] s hs hg hinv
      refine ih nodes.length _ hinv' ?_
      simp

/-- `PathStore::new` over the arena establishes the structural invariant. -/
theorem AStore_new_inv {T : Type} (d0 : Option T) : AInv (AStore.new d0).nodes := by
  refine ⟨by simp [AStore.new], ?_, ?_, ?_, ?_⟩
  · intro r hr
    simp only [AStore.new, List.getElem?_cons_zero, Option.some.injEq] at hr
    rw [← hr]
    rfl
  · intro j m hj k i hki
    cases j with
    | zero =>
      simp only [AStore.new, List.getElem?_cons_zero, Option.some.injEq] at hj
      rw [← hj] at hki
      simp [ANode.root] at hki
    | succ j => simp [AStore.new] at hj
  · intro i
    simp [countReg, entriesOf, AStore.new, ANode.root]
  · intro i hpos hlen
    simp [AStore.new] at hlen
    omega

theorem astep_inv {T : Type} (s : AStore T) (p : InputPath) (d : Option T)
    (hinv : AInv s.nodes) : AInv (astep s p d).nodes := by
  cases habs : p.absolute with
  | false => simp [astep, AStore.add_path, habs]; exact hinv
  | true =>
    have h1 := addSegsA_inv p.segments 0 s.nodes hinv (List.length_pos.2 hinv.nonempty)
    cases hm : (addSegsA p.segments 0 s.nodes).1[(addSegsA p.segments 0 s.nodes).2.1]? with
    | none =>
      simp [astep, AStore.add_path, habs, hm]
      exact h1.1
    | some m =>
      simp only [astep, AStore.add_path, habs, Bool.not_true, Bool.false_eq_true,
        if_false, hm]
      exact AInv_set_data _ _ m d hm h1.1

theorem runAddsA_inv {T : Type} (s : AStore T) (L : List (InputPath × Option T))
    (hinv : AInv s.nodes) : AInv (runAddsA s L).nodes := by
  induction L generalizing s with
  | nil => exact hinv
  | cons pd rest ih =>
    obtain ⟨p, d⟩ := pd
    exact ih _ (astep_inv s p d hinv)

/-! ### The claims -/

/-- C1: for every absolute path and payload, `add_path` succeeds, and it
returns `true` exactly when the path or some prefix of it did not previously
fully exist — equivalently, exactly when at least one new node was created
(the size counter grew) — and `false` when every segment already existed; in
particular a second identical call on the same absolute path returns
`false`. -/
theorem C1_add_path_changed_iff {T : Type} (s : PathStore T) (p : InputPath)
    (d : Option T) (h : p.absolute = true) :
    ∃ s', s.add_path p d = .ok (s', !pathExists s.root p.segments)
      ∧ ((!pathExists s.root p.segments) = true ↔ s.size < s'.size)
      ∧ ∀ d', ∃ s'', s'.add_path p d' = .ok (s'', false) := by
  refine ⟨⟨(addSegs p.segments s.root d).1,
    s.size + (addSegs p.segments s.root d).2.2⟩, ?_, ?_, ?_⟩
  · simp [PathStore.add_path, h, addSegs_changed]
  · simp only
    rw [addSegs_count]
    constructor
    · intro hch
      have hne : ¬ missingCount s.root p.segments = 0 := by
        intro h0
        have := (missingCount_eq_zero_iff s.root p.segments).1 h0
        simp [this] at hch
      omega
    · intro hlt
      have hne : missingCount s.root p.segments ≠ 0 := by omega
      cases hpe : pathExists s.root p.segments
      · simp
      · exact absurd ((missingCount_eq_zero_iff s.root p.segments).2 hpe) hne
  · intro d'
    refine ⟨⟨(addSegs p.segments (addSegs p.segments s.root d).1 d').1,
      (s.size + (addSegs p.segments s.root d).2.2)
        + (addSegs p.segments (addSegs p.segments s.root d).1 d').2.2⟩, ?_⟩
    have hb : (addSegs p.segments (addSegs p.segments s.root d).1 d').2.1 = false := by
      rw [addSegs_changed, pathExists_addSegs]
      simp [isPre_refl]
    simp [PathStore.add_path, h, hb]

theorem C1_witness :
    ∃ s', (PathStore.new (T := Nat) none).add_path ⟨true, ["f"]⟩ (some 1)
        = .ok (s', !pathExists (PathStore.new (T := Nat) none).root ["f"])
      ∧ ((!pathExists (PathStore.new (T := Nat) none).root ["f"]) = true
          ↔ (PathStore.new (T := Nat) none).size < s'.size)
      ∧ ∀ d', ∃ s'', s'.add_path ⟨true, ["f"]⟩ d' = .ok (s'', false) :=
  C1_add_path_changed_iff (PathStore.new none) ⟨true, ["f"]⟩ (some 1) rfl

/-- C2: `add_path` on a non-absolute path fails with the crate's single error
kind and leaves the store completely unchanged, on any store; and on an
absolute path it never fails. -/
theorem C2_relative_path_rejected {T : Type} (s : PathStore T) (p : InputPath)
    (d : Option T) :
    (p.absolute = false →
      s.add_path p d = .error StorageError.PathNotRelative
        ∧ (step s (.addOp p d)).1 = s)
    ∧ (p.absolute = true → ∃ r, s.add_path p d = .ok r) := by
  constructor
  · intro h
    exact ⟨by simp [PathStore.add_path, h], step_add_eq_of_relative s p d h⟩
  · intro h
    exact ⟨(⟨(addSegs p.segments s.root d).1,
      s.size + (addSegs p.segments s.root d).2.2⟩, (addSegs p.segments s.root d).2.1),
      by simp [PathStore.add_path, h]⟩

theorem C2_witness :
    (PathStore.new (T := Nat) none).add_path ⟨false, ["h"]⟩ none
        = .error StorageError.PathNotRelative
      ∧ (step (PathStore.new (T := Nat) none) (.addOp ⟨false, ["h"]⟩ none)).1
        = PathStore.new (T := Nat) none :=
  (C2_relative_path_rejected (PathStore.new none) ⟨false, ["h"]⟩ none).1 rfl

/-- C3: after any sequence of `add_path` calls on a fresh store, `size` is
the number of non-root nodes of the tree; and one more absolute-path
insertion grows `size` by exactly the number of segments of that path not
already present. -/
theorem C3_size_counts_nodes {T : Type} (L : List (InputPath × Option T)) (d0 : Option T)
    (p : List String) (d : Option T) :
    (runAdds (PathStore.new d0) L).size + 1 = numNodes (runAdds (PathStore.new d0) L).root
    ∧ (runAdds (PathStore.new d0) (L ++ [(⟨true, p⟩, d)])).size
      = (runAdds (PathStore.new d0) L).size
        + missingCount (runAdds (PathStore.new d0) L).root p := by
  have hwf := storeWF_runAdds (PathStore.new d0) L (storeWF_new d0)
  refine ⟨hwf.2.2, ?_⟩
  rw [runAdds_append]
  simp only [runAdds]
  rw [step_add_eq _ _ _ rfl]
  simp [runAdds, addSegs_count]

/-- C4: on every store reachable through the API, `walk` returns exactly the
set of `"/"`-rooted full paths of the nodes whose child map is empty, each
such structural leaf contributing exactly one entry; a node with a child is
never reported. -/
theorem C4_walk_exactly_leaves {T : Type} (L : List (InputPath × Option T))
    (d0 : Option T) :
    (∀ l, l ∈ (runAdds (PathStore.new d0) L).walk ↔
        ∃ q m, nodeAt (runAdds (PathStore.new d0) L).root q = some m
          ∧ m.items = [] ∧ l = "/" :: q)
    ∧ ((runAdds (PathStore.new d0) L).walk).Nodup :=
  walk_char_runAdds L d0

/-- C5: a successful `add_path` always overwrites the payload of the node at
the inserted path with the supplied payload, whether or not the path
pre-existed; after two successive insertions of the same path the stored
payload is the second one. -/
theorem C5_payload_overwrite {T : Type} (s : PathStore T) (p : InputPath)
    (d : Option T) (h : p.absolute = true) :
    ∃ s' b, s.add_path p d = .ok (s', b)
      ∧ (∃ m, nodeAt s'.root p.segments = some m ∧ m.data = d)
      ∧ ∀ d2, ∃ s'' b2, s'.add_path p d2 = .ok (s'', b2)
        ∧ ∃ m2, nodeAt s''.root p.segments = some m2 ∧ m2.data = d2 := by
  have main : ∀ (s0 : PathStore T) (d0 : Option T),
      ∃ s' b, s0.add_path p d0 = .ok (s', b)
        ∧ ∃ m, nodeAt s'.root p.segments = some m ∧ m.data = d0 := by
    intro s0 d0
    refine ⟨⟨(addSegs p.segments s0.root d0).1,
      s0.size + (addSegs p.segments s0.root d0).2.2⟩,
      (addSegs p.segments s0.root d0).2.1, ?_, nodeAt_addSegs p.segments s0.root d0⟩
    simp [PathStore.add_path, h]
  obtain ⟨s', b, hadd, hdat⟩ := main s d
  refine ⟨s', b, hadd, hdat, ?_⟩
  intro d2
  obtain ⟨s'', b2, hadd2, hdat2⟩ := main s' d2
  exact ⟨s'', b2, hadd2, hdat2⟩

theorem C5_witness :
    ∃ s' b, (PathStore.new (T := Nat) none).add_path ⟨true, ["f"]⟩ (some 1)
        = .ok (s', b)
      ∧ (∃ m, nodeAt s'.root ["f"] = some m ∧ m.data = some 1)
      ∧ ∀ d2, ∃ s'' b2, s'.add_path ⟨true, ["f"]⟩ d2 = .ok (s'', b2)
        ∧ ∃ m2, nodeAt s''.root ["f"] = some m2 ∧ m2.data = d2 :=
  C5_payload_overwrite (PathStore.new none) ⟨true, ["f"]⟩ (some 1) rfl

/-- C6 counterexample: the round-trip claim as stated fails for the empty
family of paths — inserting nothing into a fresh store, `walk` still returns
the root path `"/"`, which is not in the (empty) inserted set. -/
theorem C6_counterexample :
    ¬ ((runAdds (PathStore.new (T := Nat) none)
          (([] : List (List String)).map fun p => (⟨true, p⟩, none))).walk).Perm
        (([] : List (List String)).map fun p => "/" :: p) := by
  intro h
  have hlen := h.length_eq
  rw [walk_eq_walkPure] at hlen
  simp [runAdds, PathStore.new, PathNode.root, walkPure] at hlen

/-- C6 (amended: the family of paths must be nonempty): inserting every
member of a nonempty, duplicate-free, prefix-free family of absolute paths
into a fresh store, in any order and with any payloads, and then walking,
yields exactly that family as an unordered set of full paths. -/
theorem C6_round_trip {T : Type} (L : List (List String)) (d0 : Option T)
    (f : List String → Option T) (hne : L ≠ []) (hnd : L.Nodup)
    (hanti : ∀ p1 ∈ L, ∀ p2 ∈ L, isPre p1 p2 = true → p1 = p2) :
    ((runAdds (PathStore.new d0) (L.map fun p => (⟨true, p⟩, f p))).walk).Perm
      (L.map fun p => "/" :: p) := by
  have hchar := walk_char_runAdds (L.map fun p => ((⟨true, p⟩ : InputPath), f p)) d0
  have hmem : ∀ l,
      l ∈ (runAdds (PathStore.new d0) (L.map fun p => (⟨true, p⟩, f p))).walk
      ↔ l ∈ L.map fun p => "/" :: p := by
    intro l
    rw [hchar.1 l]
    simp only [List.mem_map]
    constructor
    · rintro ⟨q, m, hq, hmq, rfl⟩
      exact ⟨q, (leaf_iff_mem L d0 f hne hanti q).1 ⟨m, hq, hmq⟩, rfl⟩
    · rintro ⟨q, hqL, rfl⟩
      obtain ⟨m, hm, hmi⟩ := (leaf_iff_mem L d0 f hne hanti q).2 hqL
      exact ⟨q, m, hm, hmi, rfl⟩
  have hinj : Function.Injective (fun p : List String => "/" :: p) := by
    intro p1 p2 hp
    injection hp
  exact List.Subperm.antisymm
    (List.subperm_of_subset hchar.2 (fun l hl => (hmem l).1 hl))
    (List.subperm_of_subset (hnd.map hinj) (fun l hl => (hmem l).2 hl))

theorem C6_witness :
    ((runAdds (PathStore.new (T := Nat) none)
        ([["f"], ["g"]].map fun p => (⟨true, p⟩, none))).walk).Perm
      ([["f"], ["g"]].map fun p => "/" :: p) :=
  C6_round_trip [["f"], ["g"]] none (fun _ => none) (by simp) (by decide) (by decide)

/-- C7: `walk` and `size` are read-only — running them leaves the store (the
whole tree and the size counter) exactly as it was, and their results are a
function of that state; moreover the one piece of state `walk_inner` does
mutate, the shared `current_dir` buffer, is restored by the final pop on
every call below the root. -/
theorem C7_walk_size_read_only {T : Type} (s : PathStore T) (n : PathNode T)
    (cd : List String) (out : List (List String)) (h : cd ≠ []) :
    (step s .walkOp).1 = s ∧ (step s .sizeOp).1 = s
      ∧ (step s .walkOp).2 = .walkRes s.walk ∧ (step s .sizeOp).2 = .sizeRes s.size
      ∧ (walk_inner n cd out).1 = cd
      ∧ (walk_inner n cd out).2 = out ++ walkPure n cd := by
  refine ⟨rfl, rfl, rfl, rfl, ?_, ?_⟩
  · rw [walk_inner_eq]
    exact pathPop_concat cd n.name h
  · rw [walk_inner_eq]

theorem C7_witness :
    (step (PathStore.new (T := Nat) none) .walkOp).1 = PathStore.new (T := Nat) none
      ∧ (step (PathStore.new (T := Nat) none) .sizeOp).1 = PathStore.new (T := Nat) none
      ∧ (step (PathStore.new (T := Nat) none) .walkOp).2
        = .walkRes (PathStore.new (T := Nat) none).walk
      ∧ (step (PathStore.new (T := Nat) none) .sizeOp).2
        = .sizeRes (PathStore.new (T := Nat) none).size
      ∧ (walk_inner (PathNode.new "f" (none : Option Nat)) ["/"] []).1 = ["/"]
      ∧ (walk_inner (PathNode.new "f" (none : Option Nat)) ["/"] []).2
        = [] ++ walkPure (PathNode.new "f" (none : Option Nat)) ["/"] :=
  C7_walk_size_read_only (PathStore.new none) (PathNode.new "f" none) ["/"] []
    (by simp)

/-- C8: on a store whose root has no children — in particular a freshly
constructed store — `walk` returns exactly one entry, the root sentinel path
`"/"`: the root itself is reported as a structural leaf. -/
theorem C8_walk_empty_root {T : Type} (s : PathStore T) (d0 : Option T)
    (h1 : s.root.items = []) (h2 : s.root.name = "/") :
    s.walk = [["/"]] ∧ (PathStore.new (T := T) d0).walk = [["/"]] := by
  constructor
  · rw [walk_eq_walkPure]
    cases hroot : s.root with
    | mk nm dt its =>
      rw [hroot] at h1 h2
      rw [items_mk] at h1
      rw [name_mk] at h2
      subst h1
      subst h2
      simp [walkPure]
  · rw [walk_eq_walkPure]
    simp [PathStore.new, PathNode.root, walkPure]

theorem C8_witness :
    (PathStore.new (T := Nat) (some 7)).walk = [["/"]]
      ∧ (PathStore.new (T := Nat) (some 7)).walk = [["/"]] :=
  C8_walk_empty_root (PathStore.new (some 7)) (some 7) rfl rfl

/-- C9: `add_path` on the bare root path (absolute, no further segments)
always succeeds with `false`, creates no nodes, leaves `size` and the root's
name and children unchanged, and overwrites the root's payload. -/
theorem C9_add_root_path {T : Type} (s : PathStore T) (d : Option T) :
    s.add_path ⟨true, []⟩ d = .ok (⟨s.root.set_data d, s.size⟩, false)
      ∧ (s.root.set_data d).name = s.root.name
      ∧ (s.root.set_data d).items = s.root.items
      ∧ (s.root.set_data d).data = d := by
  refine ⟨?_, ?_, ?_, ?_⟩
  · simp [PathStore.add_path, addSegs]
  · cases s.root
    rfl
  · cases s.root
    rfl
  · cases s.root
    rfl

/-- C10: on every arena store reachable through the API, the pointer
structure is intact: every non-root cell is registered in exactly one
parent's child map, under a key equal to its own name, and its weak parent
back-reference points at exactly the cell whose map contains it; the root
cell is never registered as a child and has no parent reference. -/
theorem C10_structural_invariant {T : Type} (L : List (InputPath × Option T))
    (d0 : Option T) :
    AInv (runAddsA (AStore.new d0) L).nodes :=
  runAddsA_inv (AStore.new d0) L (AStore_new_inv d0)

end FilepathTree

